import Mathlib

/-!
Verification of the Kiwi build-system manifest / image pipeline
(`utilities/build/manifest.py` and `utilities/build/image.py`).

The Python classes are embedded shallowly: dictionaries become
association lists in insertion order, exceptions become `Except`,
and the file-system / SCons checksum machinery becomes an explicit
oracle function passed to `finalise`.
-/

namespace Kiwi

/-! ## Path helpers (os.path for POSIX, as used by the source) -/

/-- Python `str.lstrip('/')`: drop all leading slash characters. -/
def lstripSlashes (s : String) : String := ⟨s.data.dropWhile (· = '/')⟩

/-- Python `str(x)` for an optional string, `None` printing as `"None"`. -/
def pyStr : Option String → String
  | some s => s
  | none => "None"

/-- Python `str.strip()`: drop whitespace at both ends. -/
def pyStrip (s : String) : String := s.trim

/-- Python `path.split('/')`: the slash-separated segments, empties kept. -/
def splitSlash (cs : List Char) : List String :=
  cs.foldr (fun c acc =>
    match acc with
    | [] => []
    | s :: rest => if c = '/' then "" :: s :: rest else ⟨c :: s.data⟩ :: rest)
    [""]

/-- `'/'.join(components)`. -/
def joinSlash : List String → String
  | [] => ""
  | [s] => s
  | s :: rest => s ++ "/" ++ joinSlash rest

/-- `os.path.normpath` for POSIX paths: drop empty and `.` components,
resolve `..` against a preceding component, keep leading `..` components
of relative paths, and preserve the leading slash count (one, or exactly
two) of absolute paths. -/
def pyNormpath (path : String) : String :=
  if path = "" then "."
  else
    let initialSlashes : Nat :=
      match path.data with
      | '/' :: '/' :: '/' :: _ => 1
      | '/' :: '/' :: _ => 2
      | '/' :: _ => 1
      | _ => 0
    let comps := splitSlash path.data
    let newComps := comps.foldl (fun acc comp =>
      if comp = "" ∨ comp = "." then acc
      else if comp ≠ ".." ∨ (initialSlashes = 0 ∧ acc = []) ∨ (acc ≠ [] ∧ acc.getLast? = some "..") then
        acc ++ [comp]
      else if acc ≠ [] then acc.dropLast
      else acc) []
    let joined := String.mk (List.replicate initialSlashes '/') ++ joinSlash newComps
    if joined = "" then "." else joined

/-- `os.path.join(a, b)` for POSIX paths (two arguments). -/
def pathJoin (a b : String) : String :=
  if b.data.head? = some '/' then b
  else if a = "" ∨ a.data.getLast? = some '/' then a ++ b
  else a ++ "/" ++ b

/-- Index one past the last slash of the character list (`rfind('/') + 1`,
and `0` if there is no slash). -/
def lastSlashEnd : List Char → Nat
  | [] => 0
  | c :: cs =>
    let r := lastSlashEnd cs
    if r > 0 then r + 1
    else if c = '/' then 1 else 0

/-- Python `str.rstrip('/')` on a character list. -/
def rstripSlashes (cs : List Char) : List Char := (cs.reverse.dropWhile (· = '/')).reverse

/-- `os.path.dirname` for POSIX paths: everything before the last slash,
with trailing slashes stripped unless the result is all slashes. -/
def dirname (p : String) : String :=
  let cs := p.data
  let head := cs.take (lastSlashEnd cs)
  if head ≠ [] ∧ head.any (fun c => c ≠ '/') then ⟨rstripSlashes head⟩ else ⟨head⟩

/-- The chain of proper ancestor directories of `p`, from the immediate
parent upward, obtained by iterating `dirname` until it yields `""`
(exactly the loop in `Manifest._get_dirs`).  The fuel argument only
bounds the recursion; it is never exhausted on the slash-stripped
normalized paths the manifest stores. -/
def dirChainAux : Nat → String → List String
  | 0, _ => []
  | n + 1, p =>
    let d := dirname p
    if d = "" then [] else d :: dirChainAux n d

def dirChain (p : String) : List String := dirChainAux (p.length + 1) p

/-! ## Manifest entries -/

inductive ManifestEntryType where
  | File
  | Link
deriving DecidableEq, Repr

/-- One manifest entry.  `target` is the content source for a File (an
SCons node path or a plain path) or the link destination for a Link;
`checksum` is filled in by `finalise` for File entries. -/
structure ManifestEntry where
  entry_type : ManifestEntryType
  target : Option String := none
  checksum : Option String := none
deriving DecidableEq, Repr

/-- `ManifestEntry.compare`: equal kinds compared by checksum (File) or by
link target (Link); different kinds never compare equal. -/
def ManifestEntry.compare (self other : ManifestEntry) : Bool :=
  if self.entry_type = other.entry_type then
    match self.entry_type with
    | .File => self.checksum = other.checksum
    | .Link => self.target = other.target
  else false

/-- The JSON value serialised for one entry: a File row carries the raw
`checksum` field (possibly null), a Link row carries `str(target)`. -/
inductive SerialEntry where
  | file (checksum : Option String)
  | link (target : String)
deriving DecidableEq, Repr

/-- `ManifestEntry.serialise`. -/
def ManifestEntry.serialise (e : ManifestEntry) : SerialEntry :=
  match e.entry_type with
  | .File => .file e.checksum
  | .Link => .link (pyStr e.target)

/-- `ManifestEntry.deserialise` applied to a fresh entry: the File branch
sets only the checksum (via `str`), the Link branch only the target. -/
def ManifestEntry.deserialiseFrom (values : SerialEntry) : ManifestEntry :=
  match values with
  | .file c => { entry_type := .File, target := none, checksum := some (pyStr c) }
  | .link t => { entry_type := .Link, target := some t, checksum := none }

/-! ## The manifest (Entry Store) -/

/-- Association-list lookup in insertion order, i.e. Python dict lookup
for the unique-key lists the manifest maintains. -/
def lookupPath {α : Type} (p : String) : List (String × α) → Option α
  | [] => none
  | (q, v) :: rest => if q = p then some v else lookupPath p rest

/-- `Manifest`: path-keyed entries in insertion order, the ordered
dependency list of tracked targets, and the finalised flag. -/
structure Manifest where
  entries : List (String × ManifestEntry) := []
  dependencies : List String := []
  finalised : Bool := false
deriving DecidableEq, Repr

def Manifest.keys (m : Manifest) : List String := m.entries.map Prod.fst

/-- The normalized root-relative key stored by `_add_entry`. -/
def normEntryPath (path : String) : String := lstripSlashes (pyNormpath path)

/-- `Manifest._add_entry`: refuse when finalised or when the normalized
path is already present, else append the entry. -/
def Manifest._add_entry (m : Manifest) (path : String) (entry : ManifestEntry) :
    Except String Manifest :=
  if m.finalised then .error "Manifest is already finalised"
  else
    let path := normEntryPath path
    if path ∈ m.keys then .error "Adding duplicate path to manifest"
    else .ok { m with entries := m.entries ++ [(path, entry)] }

/-- The two kinds of target value accepted by `add_file`: an SCons
`Node.FS.File` instance or a plain path string. -/
inductive TargetVal where
  | sconsFile (path : String)
  | str (path : String)
deriving DecidableEq, Repr

def TargetVal.path : TargetVal → String
  | .sconsFile p => p
  | .str p => p

/-- `Manifest.add_file`: an untracked plain-string target is only valid
when `tracked` is false; tracked targets must be SCons File nodes.
Tracked targets are appended to `dependencies` in insertion order. -/
def Manifest.add_file (m : Manifest) (path : String) (target : TargetVal)
    (tracked : Bool := true) : Except String Manifest := do
  match target with
  | .sconsFile _ => pure ()
  | .str _ => if tracked then throw "Target is not valid"
  let m ← m._add_entry path { entry_type := .File, target := some target.path }
  if tracked then
    pure { m with dependencies := m.dependencies ++ [target.path] }
  else
    pure m

/-- `Manifest.add_link`. -/
def Manifest.add_link (m : Manifest) (path : String) (target : String) :
    Except String Manifest :=
  m._add_entry path { entry_type := .Link, target := some target }

/-- One iteration of the `Manifest.combine` loop: refuse a duplicate
path, append the (shallow-copied) entry, and extend `dependencies` when
the entry's target was tracked in the source manifest. -/
def combineStep (other_dependencies : List String) (acc : Manifest)
    (pe : String × ManifestEntry) : Except String Manifest := do
  if pe.1 ∈ acc.keys then throw "Duplicate manifest entries when combining"
  let acc := { acc with entries := acc.entries ++ [pe] }
  match pe.2.target with
  | some t =>
    if t ∈ other_dependencies then
      pure { acc with dependencies := acc.dependencies ++ [t] }
    else
      pure acc
  | none => pure acc

/-- `Manifest.combine`: merge a finalised manifest into an unfinalised
one, refusing duplicates, and carrying over the dependency edges of the
entries that were tracked in `other`. -/
def Manifest.combine (m other : Manifest) : Except String Manifest := do
  if m.finalised then throw "Manifest is already finalised"
  if ¬ other.finalised then throw "Source manifest is not finalised"
  other.entries.foldlM (combineStep other.dependencies) m

/-- The per-entry step of `Manifest.finalise`: fill in the checksum of a
File entry that does not have one yet. -/
def finaliseEntry (csig : Option String → String) (pe : String × ManifestEntry) :
    String × ManifestEntry :=
  if pe.2.entry_type = .File ∧ pe.2.checksum = none then
    (pe.1, { pe.2 with checksum := some (csig pe.2.target) })
  else pe

/-- `Manifest.finalise`.  `csig` is the checksum oracle standing for
`target.get_csig()` / MD5-hashing the target file; it is a pure function
of the stored target reference. -/
def Manifest.finalise (csig : Option String → String) (m : Manifest) : Manifest :=
  if m.finalised then m
  else
    { m with
      entries := m.entries.map (finaliseEntry csig),
      finalised := true }

/-- `Manifest._get_dirs`: the set of ancestor directories of all entry
paths, sorted lexicographically. -/
def Manifest._get_dirs (m : Manifest) : List String :=
  List.insertionSort (· ≤ ·) (m.keys.flatMap dirChain).dedup

/-- `Manifest.serialise` (the written JSON object): refuse when not
finalised, else the per-entry rows sorted by key (`sort_keys = True`). -/
def Manifest.serialise (m : Manifest) : Except String (List (String × SerialEntry)) :=
  if ¬ m.finalised then .error "Manifest is not finalised"
  else .ok (List.insertionSort (fun a b => a.1 ≤ b.1)
    (m.entries.map (fun pe => (pe.1, pe.2.serialise))))

/-- Truthiness of the optional `root_path` argument (`if root_path and ...`). -/
def optTruthy : Option String → Bool
  | some s => s ≠ ""
  | none => false

/-- `Manifest.deserialise` from a parsed JSON object: refuse on a
non-empty or finalised store; rehydrate File targets below `root_path`
when one is given; leave the store finalised. -/
def Manifest.deserialise (m : Manifest) (src : List (String × SerialEntry))
    (root_path : Option String := none) : Except String Manifest :=
  if m.entries ≠ [] ∨ m.finalised then .error "Deserialsing to non-empty manifest"
  else .ok
    { m with
      entries := src.map (fun pv =>
        let entry := ManifestEntry.deserialiseFrom pv.2
        let entry :=
          if optTruthy root_path ∧ entry.entry_type = .File then
            { entry with target := some (pathJoin (pyStr root_path) pv.1) }
          else entry
        (pv.1, entry)),
      finalised := true }

/-! ## The diff engine (`Manifest.get_actions`)

`ManifestActions` declares `dirs`, `removes`, `files` and `links` as
class-level attributes in the source.  `get_actions` rebinds `dirs` on
the instance but calls `append` on the other three, which therefore
mutates lists shared by every `ManifestActions` object in the process.
`ActionsClassState` is that shared class-level state, threaded
explicitly; the `ManifestActions` value returned by a call aliases the
shared lists as they stand when the call returns. -/

structure ManifestActions where
  dirs : List String
  removes : List String
  files : List (String × Option String)
  links : List (String × Option String)
deriving DecidableEq, Repr

structure ActionsClassState where
  removes : List String := []
  files : List (String × Option String) := []
  links : List (String × Option String) := []
deriving DecidableEq, Repr

/-- The class-level lists as they are when the module is loaded. -/
def ActionsClassState.initial : ActionsClassState := {}

/-- Whether the old manifest forces `path` onto the removes list: present
in the old manifest and either gone from, or different in, `self`. -/
def removePred (self : Manifest) (pe : String × ManifestEntry) : Bool :=
  match lookupPath pe.1 self.entries with
  | some entry => ¬ entry.compare pe.2
  | none => true

/-- Whether `self`'s entry at `path` differs from the old manifest
(`changed` stays true when there is no old manifest or no old entry). -/
def changedFrom (orig : Option Manifest) (path : String) (entry : ManifestEntry) : Bool :=
  match orig with
  | none => true
  | some o =>
    match lookupPath path o.entries with
    | some oe => ¬ entry.compare oe
    | none => true

/-- The per-entry step of the second `get_actions` loop: append a
changed entry to the files or links list according to its kind. -/
def applyEntry (orig : Option Manifest) (st : ActionsClassState)
    (pe : String × ManifestEntry) : ActionsClassState :=
  if changedFrom orig pe.1 pe.2 then
    match pe.2.entry_type with
    | .File => { st with files := st.files ++ [(pe.1, pe.2.target)] }
    | .Link => { st with links := st.links ++ [(pe.1, pe.2.target)] }
  else st

/-- `Manifest.get_actions`, with the shared class-level list state made
explicit.  Returns the state after the call together with the
`ManifestActions` object the call returns (whose three appended lists
alias the shared state). -/
def Manifest.get_actions (cls : ActionsClassState) (self : Manifest)
    (orig_manifest : Option Manifest := none) : ActionsClassState × ManifestActions :=
  let dirs := self._get_dirs
  let st :=
    match orig_manifest with
    | none => cls
    | some o =>
      { cls with
        removes := o.entries.foldl
          (fun acc pe => if removePred self pe then acc ++ [pe.1] else acc) cls.removes }
  let st := self.entries.foldl (applyEntry orig_manifest) st
  (st, { dirs := dirs, removes := st.removes, files := st.files, links := st.links })

/-! ## The archive and disk-image writers (`image.py`), as operation traces

Only the file-system effects matter to the claims, so the writers are
embedded as the sequence of operations they perform on host paths. -/

inductive FileOp where
  | fopen (path : String)
  | fwrite (path : String)
  | fclose (path : String)
  | rename (src dst : String)
  | runTool (tool : String) (path : String)
  | mkdtemp (path : String)
  | rmtree (path : String)
deriving DecidableEq, Repr

def FileOp.isRename : FileOp → Bool
  | .rename _ _ => true
  | _ => false

/-- `fs_archive_action`: open a TAR archive at the final target path,
add every manifest entry into it, close it. -/
def fs_archive_trace (target : String) (manifest : Manifest) : List FileOp :=
  [.fopen target] ++ manifest.entries.map (fun _ => .fwrite target) ++ [.fclose target]

/-- The inputs of one `do_disk_image_parts` invocation that decide its
control flow: the declared parts path, the persistent flag, whether the
system image file already exists, the readable lines of the UUID
side-car (`none` when it cannot be opened), the fresh UUID that
`uuid.uuid1()` would produce, the configured architecture, the KBoot
binaries, and the temporary directory `mkdtemp` returns. -/
structure ImageEnv where
  parts_path : String
  persistent : Bool
  system_exists : Bool
  uuid_lines : Option (List String)
  fresh_uuid : String
  arch : String
  kboot : List String
  tmp_dir : String
deriving Repr

def ImageEnv.system_path (env : ImageEnv) : String := env.parts_path.dropRight 6 ++ ".system"
def ImageEnv.uuid_path (env : ImageEnv) : String := env.parts_path.dropRight 6 ++ ".uuid"
def ImageEnv.efi_path (env : ImageEnv) : String := env.parts_path.dropRight 6 ++ ".efi"

/-- The first line of the UUID side-car, stripped; `""` when the file
cannot be read or has no lines (the source catches those exceptions and
leaves the UUID empty). -/
def readSidecarUuid : Option (List String) → String
  | some (l :: _) => pyStrip l
  | _ => ""

/-- Helper for writing one whole host file. -/
def writeFileOps (path : String) : List FileOp := [.fopen path, .fwrite path, .fclose path]

/-- `do_disk_image_parts`: the sequence of file-system operations of one
invocation, paired with the fatal error when it refuses to run.  The
external tools are modelled as succeeding; a raise therefore only
happens at the UUID consistency check, which the source performs before
creating the work directory or touching any output. -/
def do_disk_image_parts (env : ImageEnv) : List FileOp × Option String :=
  let system_uuid :=
    if env.persistent ∧ env.system_exists then readSidecarUuid env.uuid_lines else ""
  let create := ¬ (env.persistent ∧ env.system_exists)
  if ¬ create ∧ system_uuid = "" then
    ([], some "Cannot get image UUID, will not update")
  else
    let ops :=
      (if create ∧ env.persistent then writeFileOps env.uuid_path else [])
      ++ [.mkdtemp env.tmp_dir]
      -- update path: dump the embedded manifest out of the system image
      ++ (if ¬ create then
            writeFileOps (env.tmp_dir ++ "/debugfs_manifest.txt")
            ++ [.runTool "debugfs" env.system_path]
          else [])
      -- KBoot configuration files in the work directory
      ++ writeFileOps (env.tmp_dir ++ "/kboot_system.cfg")
      ++ writeFileOps (env.tmp_dir ++ "/kboot_efi.cfg")
      -- the debugfs command batch in the work directory
      ++ writeFileOps (env.tmp_dir ++ "/debugfs.txt")
      -- create path: allocate and format a new system image in place
      ++ (if create then
            writeFileOps env.system_path ++ [.runTool "mke2fs" env.system_path]
          else [])
      -- apply the batch to the system image
      ++ [.runTool "debugfs" env.system_path]
      ++ (if env.arch = "amd64" then [.runTool "kboot-install" env.system_path] else [])
      -- recreate the EFI image in place
      ++ writeFileOps env.efi_path
      ++ [.runTool "mkdosfs" env.efi_path, .runTool "mmd" env.efi_path,
          .runTool "mmd" env.efi_path, .runTool "mcopy" env.efi_path]
      ++ (env.kboot.filter (fun f => f.toLower.endsWith ".efi")).map
          (fun _ => .runTool "mcopy" env.efi_path)
      ++ [.rmtree env.tmp_dir]
      ++ writeFileOps env.parts_path
    (ops, none)

/-- Modelled from the spec: "each image/archive output is written to a
private temporary location and moved into place atomically at the end,
so a concurrently-reading consumer never observes a partially-written
result".  After every prefix of the operation trace, the final output
path must not have been opened for writing without having been closed
again. -/
def spec_neverPartialAtFinal (trace : List FileOp) (final : String) : Bool :=
  (List.range (trace.length + 1)).all (fun k =>
    let pre := trace.take k
    ¬ (pre.contains (.fopen final) ∧ ¬ pre.contains (.fclose final)))

/-! ## Helper lemmas: association-list lookup -/

theorem lookupPath_isSome_iff {α : Type} (p : String) (l : List (String × α)) :
    (lookupPath p l).isSome ↔ p ∈ l.map Prod.fst := by
  induction l with
  | nil => simp [lookupPath]
  | cons x l ih =>
    by_cases h : x.1 = p
    · simp [lookupPath, h]
    · simp [lookupPath, h, ih, Ne.symm h]

theorem lookupPath_eq_none_iff {α : Type} (p : String) (l : List (String × α)) :
    lookupPath p l = none ↔ p ∉ l.map Prod.fst := by
  rw [← lookupPath_isSome_iff, Option.not_isSome_iff_eq_none]

theorem lookupPath_eq_some_mem {α : Type} {p : String} {v : α} {l : List (String × α)}
    (h : lookupPath p l = some v) : (p, v) ∈ l := by
  induction l with
  | nil => simp [lookupPath] at h
  | cons x l ih =>
    by_cases hx : x.1 = p
    · simp [lookupPath, hx] at h
      have : x = (p, v) := Prod.ext hx h
      rw [← this]
      exact List.mem_cons_self x l
    · simp [lookupPath, hx] at h
      exact List.mem_cons_of_mem _ (ih h)

theorem mem_lookupPath_of_nodup {α : Type} {l : List (String × α)}
    (nd : (l.map Prod.fst).Nodup) {p : String} {v : α} (h : (p, v) ∈ l) :
    lookupPath p l = some v := by
  induction l with
  | nil => simp at h
  | cons x l ih =>
    simp only [List.map_cons, List.nodup_cons] at nd
    rcases List.mem_cons.mp h with rfl | h
    · simp [lookupPath]
    · have hx : x.1 ≠ p := by
        intro he
        exact nd.1 (he ▸ (List.mem_map_of_mem Prod.fst h))
      simp [lookupPath, hx]
      exact ih nd.2 h

theorem lookupPath_append {α : Type} (p : String) (l₁ l₂ : List (String × α)) :
    lookupPath p (l₁ ++ l₂) =
      (match lookupPath p l₁ with
       | some v => some v
       | none => lookupPath p l₂) := by
  induction l₁ with
  | nil => simp [lookupPath]
  | cons x l ih =>
    by_cases h : x.1 = p <;> simp [lookupPath, h, ih]

theorem lookupPath_map_val {α β : Type} (f : String → α → β) (p : String) :
    ∀ l : List (String × α),
      lookupPath p (l.map (fun pe => (pe.1, f pe.1 pe.2))) = (lookupPath p l).map (f p)
  | [] => by simp [lookupPath]
  | x :: l => by
    by_cases h : x.1 = p
    · simp [lookupPath, h]
    · simp [lookupPath, h, lookupPath_map_val f p l]

theorem lookupPath_perm {α : Type} {l l₂ : List (String × α)} (h : l.Perm l₂)
    (nd : (l.map Prod.fst).Nodup) (p : String) : lookupPath p l = lookupPath p l₂ := by
  induction h with
  | nil => rfl
  | cons x h ih =>
    simp only [List.map_cons, List.nodup_cons] at nd
    by_cases hx : x.1 = p <;> simp [lookupPath, hx, ih nd.2]
  | swap x y l =>
    simp only [List.map_cons, List.nodup_cons, List.mem_cons] at nd
    have hxy : y.1 ≠ x.1 := fun he => nd.1 (Or.inl he)
    by_cases hx : x.1 = p
    · simp [lookupPath, hx, hxy, hx ▸ hxy]
    · by_cases hy : y.1 = p <;> simp [lookupPath, hx, hy]
  | trans h₁ h₂ ih₁ ih₂ =>
    have nd₂ := ((h₁.map Prod.fst).nodup_iff).mp nd
    rw [ih₁ nd, ih₂ nd₂]

/-! ## Helper lemmas: the get_actions folds -/

theorem foldl_append_if {α β : Type} (P : α → Bool) (f : α → β) :
    ∀ (l : List α) (acc : List β),
      l.foldl (fun a x => if P x then a ++ [f x] else a) acc = acc ++ (l.filter P).map f
  | [], acc => by simp
  | x :: l, acc => by
    by_cases h : P x <;>
      simp [List.filter_cons, h, foldl_append_if P f l]

theorem applyEntry_foldl (orig : Option Manifest) :
    ∀ (l : List (String × ManifestEntry)) (st : ActionsClassState),
      (l.foldl (applyEntry orig) st).removes = st.removes ∧
      (l.foldl (applyEntry orig) st).files = st.files ++
        (l.filter (fun pe => changedFrom orig pe.1 pe.2 ∧ pe.2.entry_type = .File)).map
          (fun pe => (pe.1, pe.2.target)) ∧
      (l.foldl (applyEntry orig) st).links = st.links ++
        (l.filter (fun pe => changedFrom orig pe.1 pe.2 ∧ pe.2.entry_type = .Link)).map
          (fun pe => (pe.1, pe.2.target))
  | [], st => by simp
  | pe :: l, st => by
    have ih := applyEntry_foldl orig l
    by_cases hc : changedFrom orig pe.1 pe.2
    · cases ht : pe.2.entry_type <;>
        simp [applyEntry, hc, ht, List.filter_cons, ih]
    · simp [applyEntry, hc, List.filter_cons, ih]

/-! ## Helper lemmas: dirname chains and lexicographic order -/

theorem lastSlashEnd_le (cs : List Char) : lastSlashEnd cs ≤ cs.length := by
  induction cs with
  | nil => simp [lastSlashEnd]
  | cons c cs ih =>
    simp only [lastSlashEnd, List.length_cons]
    split
    · omega
    · split <;> omega

theorem take_lastSlashEnd_getLast (cs : List Char) (h : 0 < lastSlashEnd cs) :
    (cs.take (lastSlashEnd cs)).getLast? = some '/' := by
  induction cs with
  | nil => simp [lastSlashEnd] at h
  | cons c cs ih =>
    simp only [lastSlashEnd] at h ⊢
    by_cases h1 : lastSlashEnd cs > 0
    · simp only [if_pos h1, List.take_succ_cons]
      have hne : cs.take (lastSlashEnd cs) ≠ [] := by
        intro he
        rw [List.take_eq_nil_iff] at he
        rcases he with he | he
        · omega
        · rw [he] at h1
          simp [lastSlashEnd] at h1
      obtain ⟨x, t, hxt⟩ := List.exists_cons_of_ne_nil hne
      rw [hxt, List.getLast?_cons_cons, ← hxt]
      exact ih h1
    · simp only [if_neg h1] at h ⊢
      by_cases hc : c = '/'
      · simp [hc]
      · simp [hc] at h

theorem rstripSlashes_append (l : List Char) :
    rstripSlashes l ++ (l.reverse.takeWhile (· = '/')).reverse = l := by
  rw [rstripSlashes, ← List.reverse_append, List.takeWhile_append_dropWhile,
    List.reverse_reverse]

theorem rstripSlashes_pre (l : List Char) : rstripSlashes l <+: l :=
  ⟨(l.reverse.takeWhile (· = '/')).reverse, rstripSlashes_append l⟩

theorem length_dropWhile_le_own (P : Char → Bool) :
    ∀ l : List Char, (l.dropWhile P).length ≤ l.length
  | [] => by simp
  | c :: l => by
    rw [List.dropWhile_cons]
    split
    · exact Nat.le_succ_of_le (length_dropWhile_le_own P l)
    · simp

theorem rstripSlashes_length_lt {l : List Char} (h : l.getLast? = some '/') :
    (rstripSlashes l).length < l.length := by
  have hr : l.reverse.head? = some '/' := by rw [List.head?_reverse, h]
  obtain ⟨t, ht⟩ : ∃ t, l.reverse = '/' :: t := by
    cases hrev : l.reverse with
    | nil => rw [hrev] at hr; simp at hr
    | cons a t =>
      rw [hrev] at hr
      simp at hr
      exact ⟨t, by rw [hr]⟩
  have h1 : rstripSlashes l = (t.dropWhile (· = '/')).reverse := by
    rw [rstripSlashes, ht]
    simp [List.dropWhile_cons]
  have h2 : l.length = t.length + 1 := by
    have := congrArg List.length ht
    simpa using this
  have h3 := length_dropWhile_le_own (fun x => decide (x = '/')) t
  rw [h1]
  simp only [List.length_reverse]
  omega

theorem dirname_proper {p : String} (hp : p.data.head? ≠ some '/')
    (hne : dirname p ≠ "") :
    (dirname p).data <+: p.data ∧ (dirname p).data.length < p.data.length ∧
      (dirname p).data.head? ≠ some '/' := by
  by_cases hk : lastSlashEnd p.data = 0
  · exfalso
    apply hne
    have : p.data.take (lastSlashEnd p.data) = [] := by rw [hk]; simp
    simp [dirname, this]
  · have hkpos : 0 < lastSlashEnd p.data := Nat.pos_of_ne_zero hk
    obtain ⟨c, cs, hcs⟩ : ∃ c cs, p.data = c :: cs := by
      cases hd : p.data with
      | nil => rw [hd] at hkpos; simp [lastSlashEnd] at hkpos
      | cons c cs => exact ⟨c, cs, rfl⟩
    have hc : c ≠ '/' := by
      intro he
      apply hp
      rw [hcs, he]
      rfl
    obtain ⟨k, hk1⟩ : ∃ k, lastSlashEnd p.data = k + 1 :=
      ⟨lastSlashEnd p.data - 1, by omega⟩
    have hhead : p.data.take (lastSlashEnd p.data) = c :: cs.take k := by
      rw [hk1, hcs, List.take_succ_cons]
    have hanyc : (p.data.take (lastSlashEnd p.data)).any (fun x => x ≠ '/') = true := by
      rw [hhead]
      simp only [List.any_cons, Bool.or_eq_true, decide_eq_true_eq]
      exact Or.inl hc
    have hne2 : p.data.take (lastSlashEnd p.data) ≠ [] := by rw [hhead]; simp
    have hdir : dirname p = ⟨rstripSlashes (p.data.take (lastSlashEnd p.data))⟩ := by
      rw [dirname]
      rw [if_pos ⟨hne2, hanyc⟩]
    have hlast := take_lastSlashEnd_getLast p.data hkpos
    have hstrip := rstripSlashes_length_lt hlast
    have htlen : (p.data.take (lastSlashEnd p.data)).length ≤ p.data.length := by
      simp [List.length_take]
    have hpre1 : rstripSlashes (p.data.take (lastSlashEnd p.data)) <+:
        p.data.take (lastSlashEnd p.data) := rstripSlashes_pre _
    have hpre : (dirname p).data <+: p.data := by
      rw [hdir]
      exact hpre1.trans (List.take_prefix _ _)
    refine ⟨hpre, ?_, ?_⟩
    · rw [hdir]
      exact Nat.lt_of_lt_of_le hstrip htlen
    · cases hd : (dirname p).data with
      | nil => exact absurd (String.ext hd) hne
      | cons d ds =>
        have : d = c := by
          obtain ⟨t, ht⟩ := hpre
          rw [hd, hcs] at ht
          simp at ht
          exact ht.1
        rw [this]
        simp [hc]

theorem dirChainAux_mem : ∀ (n : Nat) {p d : String}, p.data.head? ≠ some '/' →
    d ∈ dirChainAux n p →
    d.data <+: p.data ∧ d.data.length < p.data.length ∧
      d.data.head? ≠ some '/' ∧ d ≠ ""
  | 0, p, d, _, h => by simp [dirChainAux] at h
  | n + 1, p, d, hp, h => by
    simp only [dirChainAux] at h
    by_cases hd : dirname p = ""
    · rw [if_pos hd] at h
      simp at h
    · rw [if_neg hd] at h
      obtain ⟨hpre, hlen, hhead⟩ := dirname_proper hp hd
      rcases List.mem_cons.mp h with rfl | h
      · exact ⟨hpre, hlen, hhead, hd⟩
      · obtain ⟨p1, l1, h1, hne1⟩ := dirChainAux_mem n hhead h
        exact ⟨p1.trans hpre, by omega, h1, hne1⟩

theorem dirChain_mem {p d : String} (hp : p.data.head? ≠ some '/')
    (h : d ∈ dirChain p) :
    d.data <+: p.data ∧ d.data.length < p.data.length ∧
      d.data.head? ≠ some '/' ∧ d ≠ "" :=
  dirChainAux_mem _ hp h

theorem lex_of_append : ∀ (l t : List Char), t ≠ [] → List.Lex (· < ·) l (l ++ t)
  | [], t, h => by
    cases t with
    | nil => exact absurd rfl h
    | cons a t => exact List.Lex.nil
  | c :: l, t, h => List.Lex.cons (lex_of_append l t h)

theorem string_lt_of_proper_pre {d p : String} (h : d.data <+: p.data)
    (hlen : d.data.length < p.data.length) : d < p := by
  rw [String.lt_iff_toList_lt]
  obtain ⟨t, ht⟩ := h
  have htne : t ≠ [] := by
    intro he
    rw [he, List.append_nil] at ht
    rw [ht] at hlen
    omega
  show List.Lex (· < ·) d.data p.data
  rw [← ht]
  exact lex_of_append d.data t htne

/-! ## Helper: decomposing one get_actions call -/

theorem get_actions_parts (cls : ActionsClassState) (S : Manifest) (O : Option Manifest) :
    (Manifest.get_actions cls S O).2.dirs = S._get_dirs ∧
    (Manifest.get_actions cls S O).2.removes = cls.removes ++
      (match O with
       | none => []
       | some o => (o.entries.filter (removePred S)).map Prod.fst) ∧
    (Manifest.get_actions cls S O).2.files = cls.files ++
      (S.entries.filter (fun pe => changedFrom O pe.1 pe.2 ∧ pe.2.entry_type = .File)).map
        (fun pe => (pe.1, pe.2.target)) ∧
    (Manifest.get_actions cls S O).2.links = cls.links ++
      (S.entries.filter (fun pe => changedFrom O pe.1 pe.2 ∧ pe.2.entry_type = .Link)).map
        (fun pe => (pe.1, pe.2.target)) := by
  cases O with
  | none =>
    obtain ⟨h1, h2, h3⟩ := applyEntry_foldl none S.entries cls
    exact ⟨rfl, by simpa [Manifest.get_actions] using h1,
      by simpa [Manifest.get_actions] using h2,
      by simpa [Manifest.get_actions] using h3⟩
  | some o =>
    obtain ⟨h1, h2, h3⟩ := applyEntry_foldl (some o) S.entries
      { cls with
        removes := o.entries.foldl
          (fun acc pe => if removePred S pe then acc ++ [pe.1] else acc) cls.removes }
    refine ⟨rfl, ?_, by simpa [Manifest.get_actions] using h2,
      by simpa [Manifest.get_actions] using h3⟩
    show (S.entries.foldl (applyEntry (some o))
      { cls with
        removes := o.entries.foldl
          (fun acc pe => if removePred S pe then acc ++ [pe.1] else acc) cls.removes }).removes =
      cls.removes ++ (o.entries.filter (removePred S)).map Prod.fst
    rw [h1]
    exact foldl_append_if (removePred S) Prod.fst o.entries cls.removes

/-! ## Claims about the diff engine -/

/-- A one-file manifest used as a concrete input. -/
def sampleFileStore : Manifest :=
  { entries := [("a", { entry_type := .File, target := some "t", checksum := some "c1" })],
    dependencies := ["t"], finalised := true }

/-- C1: `get_actions` is pure and does not mutate — REFUTED on the code.
`ManifestActions` declares `removes`, `files` and `links` as class-level
attributes, and `get_actions` appends to them, so a second call on the
same store with the same `None` argument returns a files list with the
entry duplicated, and (because every returned `ManifestActions` aliases
the same class-level lists) the action set returned by the first call is
mutated to that same doubled list. -/
theorem c1_get_actions_shared_state_bug :
    (Manifest.get_actions .initial sampleFileStore none).2.files = [("a", some "t")] ∧
    (Manifest.get_actions
        (Manifest.get_actions .initial sampleFileStore none).1 sampleFileStore none).2.files
      = [("a", some "t"), ("a", some "t")] ∧
    (Manifest.get_actions
        (Manifest.get_actions .initial sampleFileStore none).1 sampleFileStore none).1.files
      = [("a", some "t"), ("a", some "t")] := by
  refine ⟨rfl, rfl, rfl⟩

/-- The condition under which C2 puts a path on the removes list: it is
a key of the old store whose entry is gone from, or differs in, the new
store. -/
def removeCandidate (S O : Manifest) (p : String) : Prop :=
  ∃ oe, lookupPath p O.entries = some oe ∧
    (lookupPath p S.entries = none ∨
      ∃ e, lookupPath p S.entries = some e ∧ e.compare oe = false)

/-- C2: for a call on pristine class-level action state, the removes
list of `S.get_actions(O)` contains exactly the keys of the old store
that are absent from the new store or whose entry differs (File by
checksum, Link by target, distinct kinds always differing); with no old
store the removes list is empty. -/
theorem c2_removes_exact (S O : Manifest) (hO : (O.entries.map Prod.fst).Nodup) :
    (∀ p, p ∈ (Manifest.get_actions .initial S (some O)).2.removes ↔ removeCandidate S O p) ∧
    (Manifest.get_actions .initial S none).2.removes = [] := by
  constructor
  · intro p
    rw [(get_actions_parts .initial S (some O)).2.1]
    simp only [ActionsClassState.initial, List.nil_append]
    constructor
    · intro h
      obtain ⟨pe, hmem, hfst⟩ := List.mem_map.mp h
      have hfilter := List.mem_filter.mp hmem
      have hlook : lookupPath p O.entries = some pe.2 := by
        rw [← hfst]
        exact mem_lookupPath_of_nodup hO (by
          have : pe = (pe.1, pe.2) := rfl
          rw [← this]; exact hfilter.1)
      refine ⟨pe.2, hlook, ?_⟩
      have hrp := hfilter.2
      rw [removePred] at hrp
      cases hS : lookupPath pe.1 S.entries with
      | none => exact Or.inl (hfst ▸ hS)
      | some e =>
        rw [hS] at hrp
        simp at hrp
        exact Or.inr ⟨e, hfst ▸ hS, hrp⟩
    · rintro ⟨oe, hlook, hcase⟩
      have hmemO : (p, oe) ∈ O.entries := lookupPath_eq_some_mem hlook
      have hrp : removePred S (p, oe) = true := by
        rw [removePred]
        rcases hcase with hnone | ⟨e, hsome, hne⟩
        · rw [hnone]
        · rw [hsome]
          simp [hne]
      exact List.mem_map.mpr ⟨(p, oe), List.mem_filter.mpr ⟨hmemO, hrp⟩, rfl⟩
  · rw [(get_actions_parts .initial S none).2.1]
    rfl

/-- C2 witness: with old store holding File `c` and an empty new store,
`c` is on the removes list, and with no old store removes is empty. -/
theorem c2_removes_exact_witness :
    "c" ∈ (Manifest.get_actions .initial {}
      (some { entries := [("c", { entry_type := .File, target := some "t", checksum := some "x1" })],
              dependencies := [], finalised := true })).2.removes :=
  ((c2_removes_exact {}
      { entries := [("c", { entry_type := .File, target := some "t", checksum := some "x1" })],
        dependencies := [], finalised := true } (by decide)).1 "c").mpr
    ⟨{ entry_type := .File, target := some "t", checksum := some "x1" }, rfl, Or.inl rfl⟩

/-- C3: the files and links lists of `S.get_actions(O)` (on pristine
class-level action state) are exactly the entries of `S` that are absent
from `O` or differ from their old entry, partitioned by kind and kept in
the insertion order of `S`; with no old store every entry of `S` is
listed, so files and links together enumerate the full store. -/
theorem c3_files_links_exact (S : Manifest) (O : Option Manifest) :
    (Manifest.get_actions .initial S O).2.files =
      (S.entries.filter (fun pe => changedFrom O pe.1 pe.2 ∧ pe.2.entry_type = .File)).map
        (fun pe => (pe.1, pe.2.target)) ∧
    (Manifest.get_actions .initial S O).2.links =
      (S.entries.filter (fun pe => changedFrom O pe.1 pe.2 ∧ pe.2.entry_type = .Link)).map
        (fun pe => (pe.1, pe.2.target)) ∧
    (Manifest.get_actions .initial S none).2.files =
      (S.entries.filter (fun pe => pe.2.entry_type = .File)).map
        (fun pe => (pe.1, pe.2.target)) ∧
    (Manifest.get_actions .initial S none).2.links =
      (S.entries.filter (fun pe => pe.2.entry_type = .Link)).map
        (fun pe => (pe.1, pe.2.target)) := by
  have hO := get_actions_parts .initial S O
  have hnone := get_actions_parts .initial S none
  refine ⟨?_, ?_, ?_, ?_⟩
  · rw [hO.2.2.1]; rfl
  · rw [hO.2.2.2]; rfl
  · rw [hnone.2.2.1]
    simp [changedFrom, ActionsClassState.initial]
  · rw [hnone.2.2.2]
    simp [changedFrom, ActionsClassState.initial]

/-- C5: `dirs` (as returned by `get_actions`, equivalently `_get_dirs`)
contains exactly the proper ancestor directories of the entry paths,
without duplicates and sorted lexicographically, and an ancestor always
appears before its descendants.  The hypothesis states that entry paths
do not begin with a slash, which `_add_entry` guarantees by stripping
leading slashes. -/
theorem c5_dirs_sorted_ancestors (S : Manifest)
    (hk : ∀ p ∈ S.keys, p.data.head? ≠ some '/') :
    (∀ cls O, (Manifest.get_actions cls S O).2.dirs = S._get_dirs) ∧
    (∀ d, d ∈ S._get_dirs ↔ ∃ p ∈ S.keys, d ∈ dirChain p) ∧
    S._get_dirs.Nodup ∧
    List.Sorted (· ≤ ·) S._get_dirs ∧
    (∀ i j : Fin S._get_dirs.length,
      S._get_dirs.get i ∈ dirChain (S._get_dirs.get j) → (i : ℕ) < (j : ℕ)) := by
  have hperm : List.Perm S._get_dirs (S.keys.flatMap dirChain).dedup :=
    List.perm_insertionSort _ _
  have hmem : ∀ d, d ∈ S._get_dirs ↔ ∃ p ∈ S.keys, d ∈ dirChain p := by
    intro d
    rw [hperm.mem_iff, List.mem_dedup, List.mem_flatMap]
  have hnodup : S._get_dirs.Nodup := hperm.nodup_iff.mpr (List.nodup_dedup _)
  have hsorted : List.Sorted (· ≤ ·) S._get_dirs := List.sorted_insertionSort _ _
  refine ⟨fun cls O => (get_actions_parts cls S O).1, hmem, hnodup, hsorted, ?_⟩
  intro i j hchain
  have hjmem : S._get_dirs.get j ∈ S._get_dirs := S._get_dirs.get_mem _ _
  obtain ⟨p, hpk, hjc⟩ := (hmem _).mp hjmem
  have hjgood := (dirChain_mem (hk p hpk) hjc).2.2.1
  have hij : S._get_dirs.get i < S._get_dirs.get j := by
    obtain ⟨hpre, hlen, _, _⟩ := dirChain_mem hjgood hchain
    exact string_lt_of_proper_pre hpre hlen
  rcases Nat.lt_trichotomy (i : ℕ) (j : ℕ) with h | h | h
  · exact h
  · exfalso
    have : S._get_dirs.get i = S._get_dirs.get j := by
      congr 1
      exact Fin.ext h
    rw [this] at hij
    exact lt_irrefl _ hij
  · exfalso
    have hle : S._get_dirs.get j ≤ S._get_dirs.get i :=
      hsorted.rel_get_of_lt (Fin.lt_def.mpr h)
    exact absurd hij (not_lt_of_le hle)

/-- A two-file manifest with nested directories, as a concrete input. -/
def sampleDirStore : Manifest :=
  { entries :=
      [("a/b.txt", { entry_type := .File, target := some "t1", checksum := some "c1" }),
       ("a/c/d.txt", { entry_type := .File, target := some "t2", checksum := some "c2" })],
    dependencies := [], finalised := true }

/-- C5 witness: the directory list of the concrete two-file store has no
duplicates (the theorem instantiated at `sampleDirStore`). -/
theorem c5_dirs_sorted_ancestors_witness : sampleDirStore._get_dirs.Nodup :=
  (c5_dirs_sorted_ancestors sampleDirStore (by decide)).2.2.1

/-! ## Claims about finalisation and insertion -/

/-- C6: finalisation is idempotent — a second `finalise` changes nothing
(so serialising after one and after two calls is identical) — and after
finalising an unfinalised store every File entry carries a checksum
while Link entries (which never carry one on entry to `finalise`) still
carry none. -/
theorem c6_finalise_idempotent (csig : Option String → String) (m : Manifest)
    (hm : m.finalised = false)
    (hlink : ∀ pe ∈ m.entries, pe.2.entry_type = .Link → pe.2.checksum = none) :
    Manifest.finalise csig (Manifest.finalise csig m) = Manifest.finalise csig m ∧
    (Manifest.finalise csig (Manifest.finalise csig m)).serialise =
      (Manifest.finalise csig m).serialise ∧
    (∀ pe ∈ (Manifest.finalise csig m).entries,
      pe.2.entry_type = .File → pe.2.checksum ≠ none) ∧
    (∀ pe ∈ (Manifest.finalise csig m).entries,
      pe.2.entry_type = .Link → pe.2.checksum = none) := by
  have hfin : (Manifest.finalise csig m).finalised = true := by
    rw [Manifest.finalise, if_neg (by simp [hm])]
  have hid : Manifest.finalise csig (Manifest.finalise csig m) = Manifest.finalise csig m := by
    conv_lhs => rw [Manifest.finalise]
    rw [if_pos (by simp [hfin])]
  have hent : (Manifest.finalise csig m).entries = m.entries.map (finaliseEntry csig) := by
    rw [Manifest.finalise, if_neg (by simp [hm])]
  refine ⟨hid, by rw [hid], ?_, ?_⟩
  · intro pe hpe hFile
    rw [hent] at hpe
    obtain ⟨qe, hqe, rfl⟩ := List.mem_map.mp hpe
    rw [finaliseEntry]
    rw [finaliseEntry] at hFile
    by_cases hc : qe.2.entry_type = .File ∧ qe.2.checksum = none
    · rw [if_pos hc]
      simp
    · rw [if_neg hc]
      rw [if_neg hc] at hFile
      intro hnone
      exact hc ⟨hFile, hnone⟩
  · intro pe hpe hLink
    rw [hent] at hpe
    obtain ⟨qe, hqe, rfl⟩ := List.mem_map.mp hpe
    rw [finaliseEntry]
    rw [finaliseEntry] at hLink
    by_cases hc : qe.2.entry_type = .File ∧ qe.2.checksum = none
    · rw [if_pos hc] at hLink
      exfalso
      have : qe.2.entry_type = .Link := hLink
      rw [hc.1] at this
      exact ManifestEntryType.noConfusion this
    · rw [if_neg hc]
      rw [if_neg hc] at hLink
      exact hlink qe hqe hLink

/-- An unfinalised store with one File (no checksum yet) and one Link. -/
def sampleMixedStore : Manifest :=
  { entries :=
      [("f.txt", { entry_type := .File, target := some "t", checksum := none }),
       ("l", { entry_type := .Link, target := some "dest", checksum := none })],
    dependencies := ["t"], finalised := false }

/-- C6 witness: idempotence at the concrete mixed store. -/
theorem c6_finalise_idempotent_witness :
    Manifest.finalise (fun _ => "h") (Manifest.finalise (fun _ => "h") sampleMixedStore) =
      Manifest.finalise (fun _ => "h") sampleMixedStore :=
  (c6_finalise_idempotent (fun _ => "h") sampleMixedStore rfl (by decide)).1

/-- C9: `_add_entry` fails exactly when the store is finalised or the
normalized path is already a key; in particular adding the same path
`x` twice to an unfinalised store succeeds the first time, stores the
entry, and fails the second time with the first entry still in place. -/
theorem c9_add_entry_errors :
    (∀ (m : Manifest) (path : String) (entry : ManifestEntry),
      (∃ msg, m._add_entry path entry = .error msg) ↔
        (m.finalised = true ∨ normEntryPath path ∈ m.keys)) ∧
    (∀ (m : Manifest) (t u : String), m.finalised = false → "x" ∉ m.keys →
      m.add_link "x" t = .ok
        { m with entries :=
            m.entries ++ [("x", { entry_type := .Link, target := some t, checksum := none })] } ∧
      lookupPath "x"
          (m.entries ++ [("x", { entry_type := .Link, target := some t, checksum := none })]) =
        some { entry_type := .Link, target := some t, checksum := none } ∧
      ∃ msg, Manifest.add_link
        { m with entries :=
            m.entries ++ [("x", { entry_type := .Link, target := some t, checksum := none })] }
        "x" u = .error msg) := by
  have hnx : normEntryPath "x" = "x" := by decide
  constructor
  · intro m path entry
    rw [Manifest._add_entry]
    by_cases hf : m.finalised = true
    · simp [hf]
    · by_cases hmem : normEntryPath path ∈ m.keys <;>
        simp [hf, hmem]
  · intro m t u hf hx
    refine ⟨?_, ?_, ?_⟩
    · rw [Manifest.add_link, Manifest._add_entry]
      simp only [hf, hnx]
      simp [hx]
    · rw [lookupPath_append, (lookupPath_eq_none_iff _ _).mpr hx]
      simp [lookupPath]
    · refine ⟨"Adding duplicate path to manifest", ?_⟩
      rw [Manifest.add_link, Manifest._add_entry]
      have hmem : normEntryPath "x" ∈
          (m.entries ++
            [("x", ({ entry_type := .Link, target := some t, checksum := none } :
              ManifestEntry))]).map Prod.fst := by
        rw [hnx]
        simp
      simp [hf, Manifest.keys, hmem, hnx]

/-- C9 witness: the duplicate-path scenario at the empty store. -/
theorem c9_add_entry_errors_witness :
    (Manifest.add_link {} "x" "t" = .ok
      { entries := [("x", { entry_type := .Link, target := some "t", checksum := none })],
        dependencies := [], finalised := false }) ∧
    ∃ msg, Manifest.add_link
      { entries := [("x", { entry_type := .Link, target := some "t", checksum := none })],
        dependencies := [], finalised := false } "x" "u" = .error msg := by
  have h := c9_add_entry_errors.2 {} "t" "u" rfl (by decide)
  exact ⟨h.1, h.2.2⟩

/-! ## Helper: the combine loop succeeds on disjoint inputs -/

theorem combineStep_foldlM_ok (deps : List String) :
    ∀ (l : List (String × ManifestEntry)) (acc : Manifest),
      (l.map Prod.fst).Nodup → (∀ p ∈ l.map Prod.fst, p ∉ acc.keys) →
      ∃ d, l.foldlM (combineStep deps) acc =
        .ok { entries := acc.entries ++ l, dependencies := d, finalised := acc.finalised }
  | [], acc => by
    intro _ _
    refine ⟨acc.dependencies, ?_⟩
    simp only [List.foldlM_nil, List.append_nil]
    rfl
  | pe :: l, acc => by
    intro nd hdisj
    simp only [List.map_cons, List.nodup_cons] at nd
    have hpe : pe.1 ∉ acc.keys := hdisj pe.1 (by simp)
    have step : ∃ d₀, combineStep deps acc pe =
        .ok { entries := acc.entries ++ [pe], dependencies := d₀,
              finalised := acc.finalised } := by
      rw [combineStep]
      cases ht : pe.2.target with
      | none =>
        exact ⟨acc.dependencies, by simp [hpe]; rfl⟩
      | some t =>
        by_cases hdep : t ∈ deps
        · exact ⟨acc.dependencies ++ [t], by simp [hpe, hdep]; rfl⟩
        · exact ⟨acc.dependencies, by simp [hpe, hdep]; rfl⟩
    obtain ⟨d₀, hd₀⟩ := step
    have ih := combineStep_foldlM_ok deps l
      { entries := acc.entries ++ [pe], dependencies := d₀, finalised := acc.finalised }
      nd.2
      (by
        intro p hp
        simp only [Manifest.keys, List.map_append]
        intro hmem
        rcases List.mem_append.mp hmem with h | h
        · exact hdisj p (List.mem_cons_of_mem _ hp) h
        · simp at h
          exact nd.1 (h ▸ hp))
    obtain ⟨d, hd⟩ := ih
    refine ⟨d, ?_⟩
    rw [List.foldlM_cons, hd₀]
    have hfinal : l.foldlM (combineStep deps)
        { entries := acc.entries ++ [pe], dependencies := d₀, finalised := acc.finalised } =
        Except.ok
          { entries := acc.entries ++ pe :: l, dependencies := d,
            finalised := acc.finalised } := by
      rw [hd]
      simp
    exact hfinal

theorem combine_unfold {m other : Manifest} (hm : m.finalised = false)
    (ho : other.finalised = true) :
    m.combine other = other.entries.foldlM (combineStep other.dependencies) m := by
  rw [Manifest.combine]
  simp [hm, ho]

/-- C10: a successful `deserialise` leaves the store finalised, so every
later `_add_entry` / `add_file` / `add_link` / `deserialise` call fails,
`serialise` succeeds without an intervening `finalise`, and the store
passes `combine`'s finalised check as the `other` argument (combining
succeeds whenever the receiving store is unfinalised and path-disjoint). -/
theorem c10_deserialise_finalises (m0 : Manifest) (src : List (String × SerialEntry))
    (root : Option String) (h0 : m0.entries = []) (hf : m0.finalised = false) :
    ∃ D, m0.deserialise src root = .ok D ∧ D.finalised = true ∧
      (∀ path entry, ∃ msg, D._add_entry path entry = .error msg) ∧
      (∀ path target tracked, ∃ msg, D.add_file path target tracked = .error msg) ∧
      (∀ path target, ∃ msg, D.add_link path target = .error msg) ∧
      (∀ src2 root2, ∃ msg, D.deserialise src2 root2 = .error msg) ∧
      (∃ out, D.serialise = .ok out) ∧
      (∀ S : Manifest, S.finalised = false → (src.map Prod.fst).Nodup →
        (∀ p ∈ src.map Prod.fst, p ∉ S.keys) → ∃ C, S.combine D = .ok C) := by
  refine ⟨{ m0 with
      entries := src.map (fun pv =>
        let entry := ManifestEntry.deserialiseFrom pv.2
        let entry :=
          if optTruthy root ∧ entry.entry_type = .File then
            { entry with target := some (pathJoin (pyStr root) pv.1) }
          else entry
        (pv.1, entry)),
      finalised := true }, ?_, rfl, ?_, ?_, ?_, ?_, ?_, ?_⟩
  · rw [Manifest.deserialise, if_neg (by simp [h0, hf])]
  · intro path entry
    exact ⟨_, by rw [Manifest._add_entry, if_pos rfl]⟩
  · intro path target tracked
    cases target with
    | sconsFile p =>
      refine ⟨"Manifest is already finalised", ?_⟩
      simp only [Manifest.add_file, Manifest._add_entry, if_pos rfl]
      rfl
    | str p =>
      cases tracked with
      | true =>
        refine ⟨"Target is not valid", ?_⟩
        rfl
      | false =>
        refine ⟨"Manifest is already finalised", ?_⟩
        simp only [Manifest.add_file, Manifest._add_entry, if_pos rfl]
        rfl
  · intro path target
    exact ⟨_, by rw [Manifest.add_link, Manifest._add_entry, if_pos rfl]⟩
  · intro src2 root2
    exact ⟨_, by rw [Manifest.deserialise, if_pos (by simp)]⟩
  · exact ⟨_, by rw [Manifest.serialise, if_neg (by simp)]⟩
  · intro S hS hnd hdisj
    have hkeys : (src.map (fun pv =>
        let entry := ManifestEntry.deserialiseFrom pv.2
        let entry :=
          if optTruthy root ∧ entry.entry_type = .File then
            { entry with target := some (pathJoin (pyStr root) pv.1) }
          else entry
        (pv.1, entry))).map Prod.fst = src.map Prod.fst := by
      rw [List.map_map]
      rfl
    obtain ⟨d, hd⟩ := combineStep_foldlM_ok m0.dependencies
      (src.map (fun pv =>
        let entry := ManifestEntry.deserialiseFrom pv.2
        let entry :=
          if optTruthy root ∧ entry.entry_type = .File then
            { entry with target := some (pathJoin (pyStr root) pv.1) }
          else entry
        (pv.1, entry))) S
      (by rw [hkeys]; exact hnd)
      (by rw [hkeys]; exact hdisj)
    exact ⟨_, (combine_unfold hS rfl).trans hd⟩

/-- C10 witness: deserialising a single File row into a fresh store. -/
theorem c10_deserialise_finalises_witness :
    ∃ D, Manifest.deserialise {} [("a", SerialEntry.file (some "c"))] none = .ok D ∧
      D.finalised = true ∧
      (∀ path entry, ∃ msg, D._add_entry path entry = .error msg) ∧
      (∀ path target tracked, ∃ msg, D.add_file path target tracked = .error msg) ∧
      (∀ path target, ∃ msg, D.add_link path target = .error msg) ∧
      (∀ src2 root2, ∃ msg, D.deserialise src2 root2 = .error msg) ∧
      (∃ out, D.serialise = .ok out) ∧
      (∀ S : Manifest, S.finalised = false →
        ((["a"] : List String).map id).Nodup →
        (∀ p ∈ ([("a", SerialEntry.file (some "c"))].map Prod.fst), p ∉ S.keys) →
        ∃ C, S.combine D = .ok C) := by
  obtain ⟨D, h1, h2, h3, h4, h5, h6, h7, h8⟩ :=
    c10_deserialise_finalises {} [("a", SerialEntry.file (some "c"))] none rfl rfl
  exact ⟨D, h1, h2, h3, h4, h5, h6, h7, fun S hS _ hd => h8 S hS (by decide) hd⟩

/-! ## Claims about the image writers -/

/-- C8: in persistent mode with an existing system image, an unreadable
or empty UUID side-car makes `do_disk_image_parts` fail before issuing
any operation: no step of the trace is emitted, so the existing image is
neither modified nor recreated. -/
theorem c8_uuid_sidecar_fatal (env : ImageEnv) (hp : env.persistent = true)
    (he : env.system_exists = true) (hu : readSidecarUuid env.uuid_lines = "") :
    do_disk_image_parts env = ([], some "Cannot get image UUID, will not update") := by
  rw [do_disk_image_parts]
  simp [hp, he, hu]

/-- C8 witness: a persistent build over an existing image whose side-car
cannot be opened. -/
theorem c8_uuid_sidecar_fatal_witness :
    do_disk_image_parts
      { parts_path := "user.parts", persistent := true, system_exists := true,
        uuid_lines := none, fresh_uuid := "f", arch := "amd64", kboot := [],
        tmp_dir := "/tmp/w" } =
      ([], some "Cannot get image UUID, will not update") :=
  c8_uuid_sidecar_fatal
    { parts_path := "user.parts", persistent := true, system_exists := true,
      uuid_lines := none, fresh_uuid := "f", arch := "amd64", kboot := [],
      tmp_dir := "/tmp/w" } rfl rfl rfl

/-- C7 counterexample: the archive writer opens the TAR at the final
target path and streams entries into it, so after the first operation
of the trace the final path is open for writing and not yet closed —
the spec-modelled "never partially written at the final path" predicate
is false on a concrete one-entry manifest. -/
theorem c7_counterexample :
    spec_neverPartialAtFinal (fs_archive_trace "out.tar" sampleDirStore) "out.tar" = false := by
  decide

/-- C7 amended: outputs are written in place at their final paths, with
no rename step anywhere: the archive writer opens the final target
directly, and no trace of either writer contains a rename operation. -/
theorem c7_outputs_written_in_place (target : String) (m : Manifest) (env : ImageEnv) :
    (FileOp.fopen target ∈ fs_archive_trace target m) ∧
    (∀ s d, FileOp.rename s d ∉ fs_archive_trace target m) ∧
    (∀ s d, FileOp.rename s d ∉ (do_disk_image_parts env).1) := by
  refine ⟨by simp [fs_archive_trace], ?_, ?_⟩
  · intro s d
    simp [fs_archive_trace]
  · intro s d
    rw [do_disk_image_parts]
    split_ifs <;> simp [writeFileOps]

/-! ## Helper lemmas: finalisation and the serialise/deserialise round trip -/

theorem finaliseEntry_fst (csig : Option String → String) (pe : String × ManifestEntry) :
    (finaliseEntry csig pe).1 = pe.1 := by
  rw [finaliseEntry]
  split <;> rfl

theorem keys_map_finaliseEntry (csig : Option String → String) :
    ∀ l : List (String × ManifestEntry),
      (l.map (finaliseEntry csig)).map Prod.fst = l.map Prod.fst
  | [] => rfl
  | pe :: l => by
    simp only [List.map_cons, finaliseEntry_fst, keys_map_finaliseEntry csig l]

theorem finalise_entries_eq {csig : Option String → String} {m : Manifest}
    (hm : m.finalised = false) :
    (Manifest.finalise csig m).entries = m.entries.map (finaliseEntry csig) := by
  rw [Manifest.finalise, if_neg (by simp [hm])]

theorem finalise_finalised {csig : Option String → String} {m : Manifest}
    (hm : m.finalised = false) : (Manifest.finalise csig m).finalised = true := by
  rw [Manifest.finalise, if_neg (by simp [hm])]

theorem map_finaliseEntry_id (csig : Option String → String) :
    ∀ l : List (String × ManifestEntry),
      (∀ pe ∈ l, pe.2.entry_type = .File → pe.2.checksum ≠ none) →
      l.map (finaliseEntry csig) = l
  | [], _ => rfl
  | pe :: l, h => by
    rw [List.map_cons,
      map_finaliseEntry_id csig l (fun qe hq => h qe (List.mem_cons_of_mem _ hq))]
    congr 1
    rw [finaliseEntry, if_neg]
    rintro ⟨h1, h2⟩
    exact h pe (List.mem_cons_self _ _) h1 h2

/-- The shape every entry of a finalised, API-built store has: File
entries carry a checksum and Link entries carry a target. -/
def entryWF (e : ManifestEntry) : Prop :=
  (e.entry_type = .File → e.checksum ≠ none) ∧ (e.entry_type = .Link → e.target ≠ none)

theorem finaliseEntry_wf (csig : Option String → String) (pe : String × ManifestEntry)
    (hl : pe.2.entry_type = .Link → pe.2.target ≠ none) :
    entryWF (finaliseEntry csig pe).2 := by
  rw [finaliseEntry]
  by_cases hc : pe.2.entry_type = .File ∧ pe.2.checksum = none
  · rw [if_pos hc]
    constructor
    · intro _
      simp
    · intro hL
      exfalso
      have := hc.1
      rw [hL] at this
      exact ManifestEntryType.noConfusion this
  · rw [if_neg hc]
    exact ⟨fun hF hnone => hc ⟨hF, hnone⟩, hl⟩

theorem roundTrip_compare {e : ManifestEntry} (h : entryWF e) :
    (ManifestEntry.deserialiseFrom e.serialise).compare e = true := by
  obtain ⟨hf, hl⟩ := h
  rw [ManifestEntry.serialise]
  cases ht : e.entry_type with
  | File =>
    cases hc : e.checksum with
    | none => exact absurd hc (hf ht)
    | some c =>
      simp [ManifestEntry.deserialiseFrom, pyStr, ManifestEntry.compare, ht, hc]
  | Link =>
    cases htg : e.target with
    | none => exact absurd htg (hl ht)
    | some t =>
      simp [ManifestEntry.deserialiseFrom, pyStr, ManifestEntry.compare, ht, htg]

theorem keys_map_pairstep {α β : Type} (f : String → α → β) :
    ∀ l : List (String × α),
      (l.map (fun pv => (pv.1, f pv.1 pv.2))).map Prod.fst = l.map Prod.fst
  | [] => rfl
  | pv :: l => by simp only [List.map_cons, keys_map_pairstep f l]

theorem deserialise_empty_none (src : List (String × SerialEntry)) :
    Manifest.deserialise {} src none = .ok
      { entries := src.map (fun pv => (pv.1, ManifestEntry.deserialiseFrom pv.2)),
        dependencies := [], finalised := true } := by
  rw [Manifest.deserialise, if_neg (by simp)]
  simp [optTruthy]

/-- Pointwise comparison of two optional entries by
`ManifestEntry.compare`. -/
def optCompare : Option ManifestEntry → Option ManifestEntry → Prop
  | some a, some b => a.compare b = true
  | none, none => True
  | _, _ => False

/-- A finalised store holding the File entry `a`. -/
def cexA : Manifest :=
  { entries := [("a", { entry_type := .File, target := some "ta", checksum := some "ca" })],
    dependencies := [], finalised := true }

/-- A finalised store holding the File entry `b`. -/
def cexB : Manifest :=
  { entries := [("b", { entry_type := .File, target := some "tb", checksum := some "cb" })],
    dependencies := [], finalised := true }

/-- C4 counterexample: for two finalised stores with disjoint paths,
`combine` does not succeed — it raises because the receiving store is
already finalised. -/
theorem c4_counterexample :
    cexA.finalised = true ∧ cexB.finalised = true ∧
    (∀ p ∈ cexB.keys, p ∉ cexA.keys) ∧
    cexA.combine cexB = .error "Manifest is already finalised" := by
  refine ⟨rfl, rfl, by decide, rfl⟩

/-- C4 amended: for an unfinalised store `A` and a finalised store `B`
with disjoint path sets (and the entry shape every API-built store has:
unique keys, Link entries with targets, checksummed File entries once
finalised), `combine` succeeds, and deserialising the serialisation of
the finalised combined store yields a store whose entry set, under
`ManifestEntry.compare`, is exactly `entries(finalise(A)) ∪ entries(B)`. -/
theorem c4_combine_roundtrip (csig : Option String → String) (A B : Manifest)
    (hA : A.finalised = false) (hB : B.finalised = true)
    (ndA : A.keys.Nodup) (ndB : B.keys.Nodup)
    (disj : ∀ p ∈ B.keys, p ∉ A.keys)
    (hAlink : ∀ pe ∈ A.entries, pe.2.entry_type = .Link → pe.2.target ≠ none)
    (hBlink : ∀ pe ∈ B.entries, pe.2.entry_type = .Link → pe.2.target ≠ none)
    (hBfile : ∀ pe ∈ B.entries, pe.2.entry_type = .File → pe.2.checksum ≠ none) :
    ∃ C L D, A.combine B = .ok C ∧
      (Manifest.finalise csig C).serialise = .ok L ∧
      Manifest.deserialise {} L none = .ok D ∧
      (∀ p, optCompare (lookupPath p D.entries)
        (lookupPath p ((Manifest.finalise csig A).entries ++ B.entries))) := by
  obtain ⟨d, hd⟩ := combineStep_foldlM_ok B.dependencies B.entries A ndB disj
  set C : Manifest :=
    { entries := A.entries ++ B.entries, dependencies := d, finalised := A.finalised }
    with hC
  have hcomb : A.combine B = .ok C := (combine_unfold hA hB).trans hd
  have hCfin : C.finalised = false := by rw [hC]; exact hA
  have hfinC : (Manifest.finalise csig C).entries =
      (Manifest.finalise csig A).entries ++ B.entries := by
    rw [finalise_entries_eq hCfin, finalise_entries_eq hA]
    show (A.entries ++ B.entries).map (finaliseEntry csig) = _
    rw [List.map_append, map_finaliseEntry_id csig B.entries hBfile]
  have hserial : (Manifest.finalise csig C).serialise =
      .ok (List.insertionSort (fun a b => a.1 ≤ b.1)
        ((Manifest.finalise csig C).entries.map (fun pe => (pe.1, pe.2.serialise)))) := by
    rw [Manifest.serialise, if_neg (by simp [finalise_finalised hCfin])]
  set M : List (String × ManifestEntry) := (Manifest.finalise csig C).entries with hM
  set M' : List (String × SerialEntry) := M.map (fun pe => (pe.1, pe.2.serialise)) with hM'
  set L : List (String × SerialEntry) := List.insertionSort (fun a b => a.1 ≤ b.1) M' with hL
  refine ⟨C, L, _, hcomb, hserial, deserialise_empty_none L, ?_⟩
  intro p
  -- key bookkeeping
  have hkeysM : M.map Prod.fst = A.keys ++ B.keys := by
    rw [hfinC, List.map_append, finalise_entries_eq hA, keys_map_finaliseEntry]
    rfl
  have hndM : (M.map Prod.fst).Nodup := by
    rw [hkeysM]
    exact ndA.append ndB (fun a ha hb => disj a hb ha)
  have hkeysM' : M'.map Prod.fst = M.map Prod.fst := keys_map_pairstep (fun _ v => v.serialise) M
  have hpermL : List.Perm L M' := List.perm_insertionSort _ _
  -- the deserialised entry list
  set DE : List (String × ManifestEntry) :=
    L.map (fun pv => (pv.1, ManifestEntry.deserialiseFrom pv.2)) with hDE
  have hpermDE : List.Perm DE (M'.map (fun pv => (pv.1, ManifestEntry.deserialiseFrom pv.2))) :=
    hpermL.map _
  have hndDE : (DE.map Prod.fst).Nodup := by
    have h1 : DE.map Prod.fst = L.map Prod.fst :=
      keys_map_pairstep (fun _ v => ManifestEntry.deserialiseFrom v) L
    rw [h1]
    have h2 : (L.map Prod.fst).Perm (M'.map Prod.fst) := hpermL.map _
    rw [List.Perm.nodup_iff h2, hkeysM']
    exact hndM
  have hlook1 : lookupPath p DE =
      lookupPath p (M'.map (fun pv => (pv.1, ManifestEntry.deserialiseFrom pv.2))) :=
    lookupPath_perm hpermDE hndDE p
  have hlook2 : lookupPath p (M'.map (fun pv => (pv.1, ManifestEntry.deserialiseFrom pv.2))) =
      (lookupPath p M').map (fun v => ManifestEntry.deserialiseFrom v) :=
    lookupPath_map_val (fun _ v => ManifestEntry.deserialiseFrom v) p M'
  have hlook3 : lookupPath p M' = (lookupPath p M).map (fun v => v.serialise) :=
    lookupPath_map_val (fun _ v => v.serialise) p M
  have hlookDE : lookupPath p DE =
      (lookupPath p M).map (fun e => ManifestEntry.deserialiseFrom e.serialise) := by
    rw [hlook1, hlook2, hlook3, Option.map_map]
    rfl
  show optCompare (lookupPath p DE) (lookupPath p ((Manifest.finalise csig A).entries ++ B.entries))
  rw [hlookDE, ← hfinC]
  cases hlp : lookupPath p M with
  | none => exact trivial
  | some e =>
    have hmem : (p, e) ∈ M := lookupPath_eq_some_mem hlp
    have hwf : entryWF e := by
      have hmem2 : (p, e) ∈ (Manifest.finalise csig A).entries ++ B.entries := by
        rw [← hfinC]
        exact hmem
      rcases List.mem_append.mp hmem2 with hmA | hmB
      · rw [finalise_entries_eq hA] at hmA
        obtain ⟨qe, hqe, hqe2⟩ := List.mem_map.mp hmA
        have := finaliseEntry_wf csig qe (hAlink qe hqe)
        rw [hqe2] at this
        exact this
      · exact ⟨hBfile (p, e) hmB, hBlink (p, e) hmB⟩
    show optCompare (some (ManifestEntry.deserialiseFrom e.serialise)) (some e)
    exact roundTrip_compare hwf

/-- An unfinalised store with a File (no checksum yet) and a Link. -/
def rtA : Manifest :=
  { entries :=
      [("f.txt", { entry_type := .File, target := some "tf", checksum := none }),
       ("l", { entry_type := .Link, target := some "dest", checksum := none })],
    dependencies := ["tf"], finalised := false }

/-- C4 witness: the amended round trip at concrete stores `rtA` (not
finalised) and `cexB` (finalised). -/
theorem c4_combine_roundtrip_witness :
    ∃ C L D, rtA.combine cexB = .ok C ∧
      (Manifest.finalise (fun _ => "h") C).serialise = .ok L ∧
      Manifest.deserialise {} L none = .ok D ∧
      (∀ p, optCompare (lookupPath p D.entries)
        (lookupPath p ((Manifest.finalise (fun _ => "h") rtA).entries ++ cexB.entries))) :=
  c4_combine_roundtrip (fun _ => "h") rtA cexB rfl rfl (by decide) (by decide)
    (by decide) (by decide) (by decide) (by decide)

end Kiwi
